import Mathlib

/-!
Verification of the dialogue-transcript conversion utilities
(src/assets/js/utilities.js): platoHtml, platoText and CMJ
(chat-messages) representations, with the five public conversion
entry points shallowly embedded over `List Char`.

Strings are embedded as `List Char`.  Dynamically typed JavaScript
arguments are embedded by small sum types (`JsVal`, `CmjEntry`,
`CmjInput`).  The DOM parsing facility (the browser `DOMParser`, an
external capability of the repository) is embedded as an explicit
`parse : List Char → List Paragraph` parameter, and the process-wide
configuration value `machineConfig.name` as an explicit `List Char`
parameter.  Errors thrown by the JavaScript code are embedded with
`Except String`.
-/

set_option autoImplicit false

namespace Plato

/-- JS whitespace characters: the set matched by the regex class
`\s` and trimmed by `String.prototype.trim` (WhiteSpace plus
LineTerminator in the ECMAScript specification). -/
def jsWhitespaceList : List Char :=
  ['\t', '\n', '\x0b', '\x0c', '\r', ' ', ' ', ' ',
   ' ', ' ', ' ', ' ', ' ', ' ',
   ' ', ' ', ' ', ' ', ' ', ' ',
   ' ', ' ', ' ', '　', '﻿']

/-- Whether a character is JS whitespace. -/
def jsWS (c : Char) : Bool := jsWhitespaceList.contains c

/-- Characters allowed in a speaker label by the extraction regex
character class `[A-Za-z0-9_ -]`. -/
def isLabelChar (c : Char) : Bool :=
  ('A' ≤ c && c ≤ 'Z') || ('a' ≤ c && c ≤ 'z') || ('0' ≤ c && c ≤ '9')
    || c = '_' || c = ' ' || c = '-'

/-- Embedding of `String.prototype.trim`: drop JS whitespace from
both ends. -/
def jsTrim (s : List Char) : List Char :=
  ((s.dropWhile jsWS).reverse.dropWhile jsWS).reverse

/-- Embedding of `String.prototype.trimEnd`: drop JS whitespace from
the end only. -/
def jsTrimEnd (s : List Char) : List Char :=
  (s.reverse.dropWhile jsWS).reverse

/-- Embedding of `String.prototype.toUpperCase`, on the ASCII range
(all comparisons performed by the program are against ASCII
literals). -/
def jsToUpper (s : List Char) : List Char := s.map Char.toUpper

/-- Lazily match `(.*?)\n\n` with dot-matches-newline: split the
input at the first occurrence of two consecutive newline characters,
returning the part before it and the part after it. -/
def findTerm : List Char → Option (List Char × List Char)
  | [] => none
  | a :: t =>
    if a = '\n' ∧ t.head? = some '\n' then some ([], t.tail)
    else (findTerm t).map (fun pr => (a :: pr.1, pr.2))

/-- Backtracking for the greedy `\s*` in `:\s*(.*?)\n\n`: try the
whitespace-run length `w` first, and on failure retry with shorter
runs down to zero.  Returns the captured lazy content and the rest
of the input after the terminator. -/
def trySep (rest2 : List Char) : Nat → Option (List Char × List Char)
  | 0 => findTerm rest2
  | w + 1 =>
    match findTerm (rest2.drop (w + 1)) with
    | some pr => some pr
    | none => trySep rest2 w

/-- Attempt to match the regex `([A-Za-z0-9_ -]+):\s*(.*?)\n\n`
(flags `gs`) at the start of the input.  The label run is greedy;
since `:` is not a label character only the maximal run can be
followed by `:`.  On success returns the raw captured label, the raw
captured content, and the input remaining after the match. -/
def matchAt (s : List Char) : Option (List Char × List Char × List Char) :=
  if s.takeWhile isLabelChar = [] then none
  else
    match s.dropWhile isLabelChar with
    | [] => none
    | x :: rest2 =>
      if x = ':' then
        match trySep rest2 (rest2.takeWhile jsWS).length with
        | some pr => some (s.takeWhile isLabelChar, pr.1, pr.2)
        | none => none
      else none

/-- Global scan of the pattern, as performed by the `while
((match = regex.exec(...)))` loops: find the leftmost match at or
after the current position, record its two captures, and resume
immediately after the end of the match.  Fuel-based structural
recursion; every step consumes at least one character, so fuel equal
to the length of the input suffices. -/
def scanBlocks : Nat → List Char → List (List Char × List Char)
  | 0, _ => []
  | f + 1, s =>
    match matchAt s with
    | some pr => (pr.1, pr.2.1) :: scanBlocks f pr.2.2
    | none =>
      match s with
      | [] => []
      | _ :: r => scanBlocks f r

/-- All (raw label, raw content) capture pairs of the global regex
scan over the input. -/
def platoTextBlocks (s : List Char) : List (List Char × List Char) :=
  scanBlocks s.length s

/-- Embedding of a CMJ message object as produced by the converters:
`role`, `name` and `content` string fields. -/
structure Msg where
  role : List Char
  name : List Char
  content : List Char
deriving DecidableEq

/-- Embedding of a dynamically typed JavaScript value in argument or
field position: either a string or some non-string value. -/
inductive JsVal where
  | str (s : List Char)
  | nonString
deriving DecidableEq

/-- The hard-coded assistant identity of the text-to-CMJ path. -/
def machinaName : List Char := ("MACHINA RATIOCINATRIX").toList

/-- The system-role sentinel label. -/
def instructionsName : List Char := ("INSTRUCTIONS").toList

/-- Role classification shared by both CMJ-producing paths: the
role ladder (default user, first branch assistant, second branch
system), with the assistant identity (`machineConfig.name` for the
HTML path, the literal `machinaName` for the text path) passed as a
parameter. -/
def classifyRole (identity label : List Char) : List Char :=
  if jsToUpper label = identity then ("assistant").toList
  else if jsToUpper label = instructionsName then ("system").toList
  else ("user").toList

/-- Error message thrown by `platoTextToCmj`. -/
def textCmjErr : String := "Invalid input: platoText must be a non-empty string"

/-- Build one CMJ message from a raw (label, content) capture pair
in `platoTextToCmj`: both parts trimmed, role classified against the
hard-coded assistant identity. -/
def mkTextMsg (pr : List Char × List Char) : Msg :=
  { role := classifyRole machinaName (jsTrim pr.1)
    name := jsTrim pr.1
    content := jsTrim pr.2 }

/-- Embedding of `platoTextToCmj`: reject a non-string or empty
string input, then map every capture pair of the global scan to a
message. -/
def platoTextToCmj : JsVal → Except String (List Msg)
  | JsVal.nonString => Except.error textCmjErr
  | JsVal.str s =>
    if s = [] then Except.error textCmjErr
    else Except.ok ((platoTextBlocks s).map mkTextMsg)

/-- Modelled from the spec: a dialogue paragraph of the DOM produced
by the external markup-parsing facility (`DOMParser`, outside this
repository), restricted to the two observations the code makes of
it: the text content of its first `span.speaker` child when present
(`p.querySelector` then `.textContent`), and its own full text
content (`p.textContent`). -/
structure Paragraph where
  speakerSpan : Option (List Char)
  textContent : List Char
deriving DecidableEq

/-- Embedding of `String.prototype.replace` with a string pattern
and empty replacement: remove the first occurrence of `pat`, if any
(an empty pattern matches at position zero and removes nothing). -/
def replaceFirstStr (pat : List Char) : List Char → List Char
  | [] => []
  | x :: r =>
    if pat.isPrefixOf (x :: r) then (x :: r).drop pat.length
    else x :: replaceFirstStr pat r

/-- Embedding of the second replace call on the utterance, whose
pattern is `:\s*` with empty replacement: remove the first colon of
the string, wherever it occurs, together with the greedy run of JS
whitespace that follows it; a string with no colon is unchanged. -/
def removeColonWs : List Char → List Char
  | [] => []
  | x :: r => if x = ':' then r.dropWhile jsWS else x :: removeColonWs r

/-- Utterance extraction shared by both markup-consuming paths
(lines 21 and 63 of the source): full paragraph text with the first
occurrence of the raw speaker-span text removed, then the first
`:\s*` removed, then trimmed. -/
def extractUtterance (textContent spanText : List Char) : List Char :=
  jsTrim (removeColonWs (replaceFirstStr spanText textContent))

/-- Build one CMJ message from a dialogue paragraph in
`platoHtmlToCmj`, with the configured machine name deciding the
assistant role. -/
def mkHtmlMsg (mc : List Char) (textContent spanText : List Char) : Msg :=
  { role := classifyRole mc (jsTrim spanText)
    name := jsTrim spanText
    content := extractUtterance textContent spanText }

/-- Error message thrown by `platoHtmlToCmj`. -/
def htmlCmjErr : String := "Invalid input: platoHtml must be a non-empty string"

/-- Error message thrown by `platoHtmlToPlatoText`. -/
def htmlTextErr : String := "Invalid input: platoHtml must be a string"

/-- Error message thrown by `platoTextToPlatoHtml`. -/
def textHtmlErr : String := "Invalid input: platoText must be a string"

/-- Embedding of `platoHtmlToCmj`: reject a non-string or empty
string, parse with the external facility, and emit one message per
dialogue paragraph that has a speaker span (paragraphs without one
are skipped). -/
def platoHtmlToCmj (mc : List Char) (parse : List Char → List Paragraph) :
    JsVal → Except String (List Msg)
  | JsVal.nonString => Except.error htmlCmjErr
  | JsVal.str s =>
    if s = [] then Except.error htmlCmjErr
    else
      Except.ok ((parse s).filterMap
        (fun p => p.speakerSpan.map (mkHtmlMsg mc p.textContent)))

/-- Accumulation loop of `platoHtmlToPlatoText`: render each
paragraph that has a speaker span as `speaker: utterance` followed
by a blank line. -/
def htmlTextGo : List Paragraph → List Char
  | [] => []
  | p :: r =>
    (match p.speakerSpan with
     | none => []
     | some sp =>
       jsTrim sp ++ ':' :: ' ' :: extractUtterance p.textContent sp ++ ['\n', '\n'])
      ++ htmlTextGo r

/-- Embedding of `platoHtmlToPlatoText`: reject a non-string,
return the empty string on empty or whitespace-only input, and
otherwise render every well-formed dialogue paragraph. -/
def platoHtmlToPlatoText (parse : List Char → List Paragraph) :
    JsVal → Except String (List Char)
  | JsVal.nonString => Except.error htmlTextErr
  | JsVal.str s =>
    if jsTrim s = [] then Except.ok []
    else Except.ok (htmlTextGo (parse s))

/-- First escaping pass of the platoHtml serializer: the global
replacement of `<` by `&lt;`. -/
def escLt (s : List Char) : List Char :=
  s.flatMap (fun c => if c = '<' then ("&lt;").toList else [c])

/-- Second escaping pass of the platoHtml serializer: the global
replacement of `>` by `&gt;`. -/
def escGt (s : List Char) : List Char :=
  s.flatMap (fun c => if c = '>' then ("&gt;").toList else [c])

/-- HTML escaping applied to utterances: both global replacements in
the order the code applies them. -/
def escapeHtml (s : List Char) : List Char := escGt (escLt s)

/-- Render one capture pair of the text scan as a dialogue
paragraph, as in the template literal of `platoTextToPlatoHtml`. -/
def renderHtmlP (pr : List Char × List Char) : List Char :=
  ("<p class=\"dialogue\"><span class=\"speaker\">").toList ++ jsTrim pr.1
    ++ ("</span> ").toList ++ escapeHtml (jsTrim pr.2) ++ ("</p>").toList ++ ['\n']

/-- Accumulation loop of `platoTextToPlatoHtml`. -/
def htmlGo : List (List Char × List Char) → List Char
  | [] => []
  | pr :: r => renderHtmlP pr ++ htmlGo r

/-- Embedding of `platoTextToPlatoHtml`: reject a non-string,
return the empty string on empty or whitespace-only input, and
otherwise render every matched block, trimming trailing whitespace
from the final result. -/
def platoTextToPlatoHtml : JsVal → Except String (List Char)
  | JsVal.nonString => Except.error textHtmlErr
  | JsVal.str s =>
    if jsTrim s = [] then Except.ok []
    else Except.ok (jsTrimEnd (htmlGo (platoTextBlocks s)))

/-- Embedding of one element of the array passed to
`CmjToPlatoText`: either an object, observed through its `name`,
`content` and `role` properties (a missing property reads as a
non-string), or a value on which property access does not yield
strings at all (`null`, numbers, and so on). -/
inductive CmjEntry where
  | obj (name content roleV : JsVal)
  | nonObj
deriving DecidableEq

/-- Embedding of the argument of `CmjToPlatoText`: an array of
entries or a non-array value. -/
inductive CmjInput where
  | arr (l : List CmjEntry)
  | notArr
deriving DecidableEq

/-- Accumulation loop of `CmjToPlatoText`: entries whose `name` and
`content` are both strings are rendered as `name: content` followed
by a blank line; every other entry contributes nothing. -/
def cmjGo : List CmjEntry → List Char
  | [] => []
  | e :: r =>
    (match e with
     | CmjEntry.obj (JsVal.str n) (JsVal.str c) _ =>
       jsTrim n ++ ':' :: ' ' :: jsTrim c ++ ['\n', '\n']
     | _ => []) ++ cmjGo r

/-- Embedding of `CmjToPlatoText`: a non-array input yields the
empty string (after a non-fatal console report); the function is
total and never throws. -/
def CmjToPlatoText : CmjInput → List Char
  | CmjInput.notArr => []
  | CmjInput.arr l => cmjGo l

/-- Whether a string contains no occurrence of two consecutive
newline characters (the block terminator of the platoText format). -/
def noNN : List Char → Bool
  | a :: b :: t => if a = '\n' ∧ b = '\n' then false else noNN (b :: t)
  | _ => true

/-- The platoText block serialized for a (speaker, utterance) pair:
`speaker: utterance` followed by a blank line. -/
def blockOf (pr : List Char × List Char) : List Char :=
  pr.1 ++ ':' :: ' ' :: (pr.2 ++ ['\n', '\n'])

/-- Conditions on a (speaker, utterance) pair under which the text
extractor recovers the pair exactly from its serialized block: the
speaker is a nonempty string of label characters, and the utterance
is nonempty, starts with a non-whitespace character, contains no
blank-line terminator and does not end in a newline. -/
def goodPair (pr : List Char × List Char) : Prop :=
  pr.1 ≠ [] ∧ (∀ c ∈ pr.1, isLabelChar c = true) ∧ pr.2 ≠ []
    ∧ (∀ x t, pr.2 = x :: t → jsWS x = false)
    ∧ noNN pr.2 = true ∧ pr.2.getLast? ≠ some '\n'

/-- Conditions on a CMJ entry under which the text round trip
recovers it: an object whose `name` and `content` are strings, with
trimmed name nonempty and made of label characters only, trimmed
content nonempty and free of blank-line terminators, and a trimmed
name that does not collide with the assistant-identity or
INSTRUCTIONS sentinels. -/
def goodEntry : CmjEntry → Bool
  | CmjEntry.obj (JsVal.str n) (JsVal.str c) _ =>
    decide (jsTrim n ≠ [] ∧ (∀ ch ∈ jsTrim n, isLabelChar ch = true)
      ∧ jsTrim c ≠ [] ∧ noNN (jsTrim c) = true
      ∧ jsToUpper (jsTrim n) ≠ machinaName
      ∧ jsToUpper (jsTrim n) ≠ instructionsName)
  | _ => false

/-- The (trimmed name, trimmed content) pair of a well-formed CMJ
entry; a malformed entry maps to the empty pair. -/
def entryPair : CmjEntry → List Char × List Char
  | CmjEntry.obj (JsVal.str n) (JsVal.str c) _ => (jsTrim n, jsTrim c)
  | _ => ([], [])

/-- The message the text round trip produces for a CMJ entry: name
and content trimmed, role re-derived by the classifier of the
text-to-CMJ path. -/
def roundTripMsg (e : CmjEntry) : Msg :=
  { role := classifyRole machinaName (entryPair e).1
    name := (entryPair e).1
    content := (entryPair e).2 }

/-- The `name` and `content` observations `CmjToPlatoText` makes of
an entry; the `role` field is not among them. -/
def entryNC : CmjEntry → Option (JsVal × JsVal)
  | CmjEntry.obj n c _ => some (n, c)
  | CmjEntry.nonObj => none

/-- Rendering of a single entry by `CmjToPlatoText`: `none` for a
skipped malformed entry, the rendered block otherwise. -/
def renderEntryOpt : CmjEntry → Option (List Char)
  | CmjEntry.obj (JsVal.str n) (JsVal.str c) _ =>
    some (jsTrim n ++ ':' :: ' ' :: jsTrim c ++ ['\n', '\n'])
  | _ => none

/-- Modelled from the spec: strip one optional leading colon plus
its following whitespace, the reading of the utterance computation
given by the specification and the claim (the source instead removes
the first `:\s*` occurring anywhere). -/
def stripLeadingColon : List Char → List Char
  | ':' :: r => r.dropWhile jsWS
  | s => s

/-- Modelled from the spec: the utterance computation as the claim
states it, with only a leading colon stripped after the speaker text
is removed. -/
def utteranceLeadingColon (textContent spanText : List Char) : List Char :=
  jsTrim (stripLeadingColon (replaceFirstStr spanText textContent))

/-- Dropping from the front while a predicate holds leaves a list
whose head, if any, falsifies the predicate. -/
theorem dropWhile_head_false {p : Char → Bool} {l : List Char} {x : Char} {t : List Char}
    (h : l.dropWhile p = x :: t) : p x = false := by
  have hh := List.head?_dropWhile_not p l
  rw [h] at hh
  simpa using hh

/-- A list whose head, if any, falsifies the predicate is unchanged
by dropWhile. -/
theorem dropWhile_id_of_head {p : Char → Bool} :
    ∀ (l : List Char), (∀ x t, l = x :: t → p x = false) → l.dropWhile p = l
  | [], _ => rfl
  | x :: t, h => by
    have hx : p x = false := h x t rfl
    simp [List.dropWhile_cons, hx]

/-- The head of a nonempty trimmed string is not whitespace. -/
theorem jsTrim_head_false {s : List Char} {x : Char} {t : List Char}
    (h : jsTrim s = x :: t) : jsWS x = false := by
  have hsuf : (s.dropWhile jsWS).reverse.dropWhile jsWS <:+ (s.dropWhile jsWS).reverse :=
    List.dropWhile_suffix _
  have hpre : jsTrim s <+: s.dropWhile jsWS := by
    unfold jsTrim
    rw [← List.reverse_suffix]
    simpa using hsuf
  obtain ⟨w, hw⟩ := hpre
  rw [h] at hw
  exact dropWhile_head_false hw.symm

/-- The last character of a trimmed string is not whitespace. -/
theorem jsTrim_getLast_false {s : List Char} {x : Char}
    (h : (jsTrim s).getLast? = some x) : jsWS x = false := by
  unfold jsTrim at h
  rw [List.getLast?_reverse] at h
  cases hv : (s.dropWhile jsWS).reverse.dropWhile jsWS with
  | nil => rw [hv] at h; simp at h
  | cons y t =>
    rw [hv] at h
    have hy : y = x := by simpa using h
    subst hy
    exact dropWhile_head_false hv

/-- Trimming is idempotent. -/
theorem jsTrim_idem (s : List Char) : jsTrim (jsTrim s) = jsTrim s := by
  have h1 : (jsTrim s).dropWhile jsWS = jsTrim s :=
    dropWhile_id_of_head _ (fun _ _ hxt => jsTrim_head_false hxt)
  have h2 : (jsTrim s).reverse.dropWhile jsWS = (jsTrim s).reverse := by
    apply dropWhile_id_of_head
    intro x t hxt
    apply jsTrim_getLast_false (s := s)
    rw [← List.head?_reverse, hxt]
    rfl
  have hdef : jsTrim (jsTrim s)
      = (((jsTrim s).dropWhile jsWS).reverse.dropWhile jsWS).reverse := rfl
  rw [hdef, h1, h2, List.reverse_reverse]

/-- takeWhile and dropWhile split an all-satisfying initial segment
followed by a failing character exactly at that character. -/
theorem takeWhile_append_of_all {p : Char → Bool} :
    ∀ (n : List Char) (x : Char) (t : List Char),
      (∀ c ∈ n, p c = true) → p x = false →
      (n ++ x :: t).takeWhile p = n ∧ (n ++ x :: t).dropWhile p = x :: t := by
  intro n
  induction n with
  | nil =>
    intro x t _ hx
    exact ⟨by simp [List.takeWhile_cons, hx], by simp [List.dropWhile_cons, hx]⟩
  | cons a n ih =>
    intro x t hall hx
    have ha : p a = true := hall a (by simp)
    have hrec := ih x t (fun c hc => hall c (by simp [hc])) hx
    exact ⟨by simp [List.takeWhile_cons, ha, hrec.1],
           by simp [List.dropWhile_cons, ha, hrec.2]⟩

/-- Unfolding lemma for `noNN` on a two-character head. -/
theorem noNN_parts {a b : Char} {t : List Char} (h : noNN (a :: b :: t) = true) :
    ¬(a = '\n' ∧ b = '\n') ∧ noNN (b :: t) = true := by
  have hdef : noNN (a :: b :: t)
      = if a = '\n' ∧ b = '\n' then false else noNN (b :: t) := rfl
  by_cases hc : a = '\n' ∧ b = '\n'
  · rw [hdef, if_pos hc] at h
    simp at h
  · rw [hdef, if_neg hc] at h
    exact ⟨hc, h⟩

/-- Step equation for `findTerm` when the terminator does not start
at the current position. -/
theorem findTerm_cons_eq {a : Char} {t : List Char}
    (h : ¬(a = '\n' ∧ t.head? = some '\n')) :
    findTerm (a :: t) = (findTerm t).map (fun pr => (a :: pr.1, pr.2)) := by
  have hdef : findTerm (a :: t)
      = if a = '\n' ∧ t.head? = some '\n' then some ([], t.tail)
        else (findTerm t).map (fun pr => (a :: pr.1, pr.2)) := rfl
  rw [hdef, if_neg h]

/-- findTerm fires on a terminator at the current position. -/
theorem findTerm_term {rest : List Char} :
    findTerm ('\n' :: '\n' :: rest) = some ([], rest) := by
  have hdef : findTerm ('\n' :: ('\n' :: rest))
      = if ('\n' : Char) = '\n' ∧ (('\n' :: rest) : List Char).head? = some '\n'
        then some ([], (('\n' :: rest) : List Char).tail)
        else (findTerm ('\n' :: rest)).map (fun pr => ('\n' :: pr.1, pr.2)) := rfl
  rw [hdef, if_pos ⟨rfl, rfl⟩]
  rfl

/-- Lazy matching of `(.*?)\n\n` over content followed by a
terminator: when the content has no internal terminator and does not
end in a newline, the first terminator found is exactly the appended
one, so the content is captured in full. -/
theorem findTerm_flush :
    ∀ (c rest : List Char), noNN c = true → c.getLast? ≠ some '\n' →
      findTerm (c ++ '\n' :: '\n' :: rest) = some (c, rest) := by
  intro c
  induction c with
  | nil =>
    intro rest _ _
    simpa using findTerm_term
  | cons a c ih =>
    intro rest hnn hlast
    cases c with
    | nil =>
      have ha : ¬(a = '\n' ∧ (('\n' :: '\n' :: rest) : List Char).head? = some '\n') := by
        intro hc
        exact hlast (by simp [hc.1])
      show findTerm (a :: ('\n' :: '\n' :: rest)) = some ([a], rest)
      rw [findTerm_cons_eq ha, findTerm_term]
      rfl
    | cons b c2 =>
      obtain ⟨hab, hnn2⟩ := noNN_parts hnn
      rw [List.getLast?_cons_cons] at hlast
      have hstep : ¬(a = '\n' ∧ ((b :: c2) ++ '\n' :: '\n' :: rest).head? = some '\n') := by
        intro hc
        apply hab
        refine ⟨hc.1, ?_⟩
        have hb : ((b :: c2) ++ '\n' :: '\n' :: rest).head? = some b := rfl
        rw [hb] at hc
        exact Option.some.inj hc.2
      show findTerm (a :: ((b :: c2) ++ '\n' :: '\n' :: rest)) = some (a :: b :: c2, rest)
      rw [findTerm_cons_eq hstep, ih rest hnn2 hlast]
      rfl

/-- The regex matches at the start of a serialized block: the
greedy label run stops exactly at the colon, the greedy whitespace
run after the colon is the single serialized space (the utterance
starts with a non-whitespace character), and the lazy content
capture extends exactly to the appended terminator. -/
theorem matchAt_block (n : List Char) (hc : Char) (ctl rest : List Char)
    (hn : n ≠ []) (hlab : ∀ c ∈ n, isLabelChar c = true)
    (hws : jsWS hc = false) (hnn : noNN (hc :: ctl) = true)
    (hlast : (hc :: ctl).getLast? ≠ some '\n') :
    matchAt (n ++ ':' :: ' ' :: hc :: (ctl ++ '\n' :: '\n' :: rest))
      = some (n, hc :: ctl, rest) := by
  have hcolon : isLabelChar ':' = false := by decide
  have hsp : jsWS ' ' = true := by decide
  obtain ⟨htake, hdrop⟩ := takeWhile_append_of_all n ':'
      (' ' :: hc :: (ctl ++ '\n' :: '\n' :: rest)) hlab hcolon
  have hterm : findTerm (hc :: (ctl ++ '\n' :: '\n' :: rest)) = some (hc :: ctl, rest) := by
    have hfl := findTerm_flush (hc :: ctl) rest hnn hlast
    simpa using hfl
  have hWS : ((' ' :: hc :: (ctl ++ '\n' :: '\n' :: rest)).takeWhile jsWS).length = 1 := by
    rw [List.takeWhile_cons, if_pos hsp, List.takeWhile_cons, if_neg (by simp [hws])]
    rfl
  have htry : trySep (' ' :: hc :: (ctl ++ '\n' :: '\n' :: rest)) 1 = some (hc :: ctl, rest) := by
    have hdef : trySep (' ' :: hc :: (ctl ++ '\n' :: '\n' :: rest)) 1
        = match findTerm ((' ' :: hc :: (ctl ++ '\n' :: '\n' :: rest)).drop 1) with
          | some pr => some pr
          | none => trySep (' ' :: hc :: (ctl ++ '\n' :: '\n' :: rest)) 0 := rfl
    rw [hdef]
    have hdrop1 : (' ' :: hc :: (ctl ++ '\n' :: '\n' :: rest)).drop 1
        = hc :: (ctl ++ '\n' :: '\n' :: rest) := rfl
    rw [hdrop1, hterm]
  unfold matchAt
  rw [htake, hdrop, if_neg hn]
  show (if ':' = ':' then
          match trySep (' ' :: hc :: (ctl ++ '\n' :: '\n' :: rest))
              ((' ' :: hc :: (ctl ++ '\n' :: '\n' :: rest)).takeWhile jsWS).length with
          | some pr => some (n, pr.1, pr.2)
          | none => none
        else none) = some (n, hc :: ctl, rest)
  rw [if_pos rfl, hWS, htry]

/-- Scanning the empty string yields no pairs, whatever the fuel. -/
theorem scanBlocks_nil : ∀ fuel, scanBlocks fuel [] = []
  | 0 => rfl
  | _ + 1 => rfl

/-- Step equation of the global scan on a successful match. -/
theorem scanBlocks_succ_match {f : Nat} {s n c rest : List Char}
    (h : matchAt s = some (n, c, rest)) :
    scanBlocks (f + 1) s = (n, c) :: scanBlocks f rest := by
  simp only [scanBlocks, h]

/-- The global scan recovers exactly the serialized pairs from a
concatenation of well-formed blocks, given enough fuel. -/
theorem scanBlocks_blocks :
    ∀ (ps : List (List Char × List Char)) (fuel : Nat),
      (∀ pr ∈ ps, goodPair pr) →
      ((ps.map blockOf).flatten).length ≤ fuel →
      scanBlocks fuel ((ps.map blockOf).flatten) = ps := by
  intro ps
  induction ps with
  | nil => intro fuel _ _; exact scanBlocks_nil fuel
  | cons pr ps ih =>
    intro fuel hall hlen
    obtain ⟨hn, hlab, hc2, hhead, hnn, hlast⟩ := hall pr (by simp)
    obtain ⟨x, ctl, hx⟩ : ∃ x ctl, pr.2 = x :: ctl := by
      cases hpr2 : pr.2 with
      | nil => exact absurd hpr2 hc2
      | cons x ctl => exact ⟨x, ctl, rfl⟩
    have hws : jsWS x = false := hhead x ctl hx
    rw [hx] at hnn hlast
    have hshape : ((pr :: ps).map blockOf).flatten
        = pr.1 ++ ':' :: ' ' :: x :: (ctl ++ '\n' :: '\n' :: (ps.map blockOf).flatten) := by
      simp [blockOf, hx, List.append_assoc]
    cases fuel with
    | zero =>
      exfalso
      rw [hshape] at hlen
      simp at hlen
    | succ f =>
      rw [hshape,
        scanBlocks_succ_match (matchAt_block pr.1 x ctl _ hn hlab hws hnn hlast)]
      have hR : scanBlocks f ((ps.map blockOf).flatten) = ps := by
        apply ih f (fun q hq => hall q (by simp [hq]))
        rw [hshape] at hlen
        simp only [List.length_append, List.length_cons] at hlen
        omega
      rw [hR, ← hx]

/-- On a list of well-formed entries, the CMJ serializer produces
exactly the concatenation of the serialized blocks of the entry
pairs. -/
theorem cmjGo_blocks :
    ∀ (l : List CmjEntry), (∀ e ∈ l, goodEntry e = true) →
      cmjGo l = ((l.map entryPair).map blockOf).flatten := by
  intro l
  induction l with
  | nil => intro _; rfl
  | cons e r ih =>
    intro hall
    have he := hall e (by simp)
    have hr := ih (fun q hq => hall q (by simp [hq]))
    cases e with
    | nonObj => simp [goodEntry] at he
    | obj nv cv rv =>
      cases nv with
      | nonString => simp [goodEntry] at he
      | str n =>
        cases cv with
        | nonString => simp [goodEntry] at he
        | str c =>
          show (jsTrim n ++ ':' :: ' ' :: jsTrim c ++ ['\n', '\n']) ++ cmjGo r = _
          rw [hr]
          simp [blockOf, entryPair, List.append_assoc]

/-- A well-formed CMJ entry yields a pair the text extractor can
recover from its block. -/
theorem goodEntry_pair {e : CmjEntry} (h : goodEntry e = true) : goodPair (entryPair e) := by
  cases e with
  | nonObj => simp [goodEntry] at h
  | obj nv cv rv =>
    cases nv with
    | nonString => simp [goodEntry] at h
    | str n =>
      cases cv with
      | nonString => simp [goodEntry] at h
      | str c =>
        have hp := of_decide_eq_true h
        obtain ⟨htn, hlab, htc, hnn, _, _⟩ := hp
        refine ⟨htn, hlab, htc, ?_, hnn, ?_⟩
        · intro x t hxt
          exact jsTrim_head_false hxt
        · intro hlast
          have : jsWS '\n' = false := jsTrim_getLast_false hlast
          simp [jsWS, jsWhitespaceList] at this

/-- Re-trimming after the round trip is the identity: mapping the
text-to-CMJ message builder over an entry pair is the round-trip
image of the entry. -/
theorem mkTextMsg_entryPair (e : CmjEntry) : mkTextMsg (entryPair e) = roundTripMsg e := by
  cases e with
  | nonObj => rfl
  | obj nv cv rv =>
    cases nv with
    | nonString => rfl
    | str n =>
      cases cv with
      | nonString => rfl
      | str c =>
        show mkTextMsg (jsTrim n, jsTrim c) = _
        unfold mkTextMsg roundTripMsg
        simp [entryPair, jsTrim_idem]

/-- Characterization of a successful `platoHtmlToCmj` run: the input
was a nonempty string and the output is one message per paragraph
with a speaker span. -/
theorem platoHtmlToCmj_ok {mc : List Char} {parse : List Char → List Paragraph}
    {v : JsVal} {msgs : List Msg}
    (h : platoHtmlToCmj mc parse v = Except.ok msgs) :
    ∃ s, v = JsVal.str s ∧
      msgs = (parse s).filterMap (fun p => p.speakerSpan.map (mkHtmlMsg mc p.textContent)) := by
  cases v with
  | nonString => simp [platoHtmlToCmj] at h
  | str s =>
    simp only [platoHtmlToCmj] at h
    by_cases hs : s = []
    · rw [if_pos hs] at h
      cases h
    · rw [if_neg hs] at h
      exact ⟨s, rfl, (Except.ok.inj h).symm⟩

/-- Characterization of a successful `platoTextToCmj` run. -/
theorem platoTextToCmj_ok {v : JsVal} {msgs : List Msg}
    (h : platoTextToCmj v = Except.ok msgs) :
    ∃ s, v = JsVal.str s ∧ msgs = (platoTextBlocks s).map mkTextMsg := by
  cases v with
  | nonString => simp [platoTextToCmj] at h
  | str s =>
    simp only [platoTextToCmj] at h
    by_cases hs : s = []
    · rw [if_pos hs] at h
      cases h
    · rw [if_neg hs] at h
      exact ⟨s, rfl, (Except.ok.inj h).symm⟩

/-- The classifier can only return one of the three role strings. -/
theorem classifyRole_cases (identity label : List Char) :
    classifyRole identity label = ("user").toList
      ∨ classifyRole identity label = ("assistant").toList
      ∨ classifyRole identity label = ("system").toList := by
  unfold classifyRole
  split
  · right; left; rfl
  · split
    · right; right; rfl
    · left; rfl

/-- C1 counterexample: the round-trip claim fails as stated.  The
single-message array with name `Bob!` and content `Hey` has string
name and content fields and a trimmed name colliding with no
sentinel, yet serializing it and re-extracting yields the empty
message list rather than a one-message list, because `!` is outside
the label character class of the extraction regex. -/
theorem cmjToText_textToCmj_claim_counterexample :
    CmjToPlatoText (CmjInput.arr
        [CmjEntry.obj (JsVal.str (("Bob!").toList)) (JsVal.str (("Hey").toList))
          (JsVal.str (("user").toList))])
      = ("Bob!: Hey\n\n").toList
    ∧ platoTextToCmj (JsVal.str (("Bob!: Hey\n\n").toList)) = Except.ok ([] : List Msg)
    ∧ ([] : List Msg).length
        ≠ [CmjEntry.obj (JsVal.str (("Bob!").toList)) (JsVal.str (("Hey").toList))
            (JsVal.str (("user").toList))].length :=
  ⟨rfl, rfl, by decide⟩

/-- C1 (amended): applying `CmjToPlatoText` and then `platoTextToCmj`
yields a message array of the same length and order with, per
position, the trimmed name, the trimmed content, and the role
re-derived by the text-path classifier — provided the array is
nonempty and every message has string name and content fields whose
trimmed name is a nonempty string of regex label characters not
colliding with the INSTRUCTIONS or assistant-identity sentinels and
whose trimmed content is nonempty and contains no blank-line
terminator. -/
theorem cmjToText_textToCmj_roundTrip (l : List CmjEntry) (hne : l ≠ [])
    (hall : ∀ e ∈ l, goodEntry e = true) :
    platoTextToCmj (JsVal.str (CmjToPlatoText (CmjInput.arr l)))
      = Except.ok (l.map roundTripMsg) := by
  have hgo : cmjGo l = ((l.map entryPair).map blockOf).flatten := cmjGo_blocks l hall
  have hpairs : ∀ pr ∈ l.map entryPair, goodPair pr := by
    intro pr hpr
    rw [List.mem_map] at hpr
    obtain ⟨e, he, rfl⟩ := hpr
    exact goodEntry_pair (hall e he)
  have hTne : cmjGo l ≠ [] := by
    rw [hgo]
    cases l with
    | nil => exact absurd rfl hne
    | cons e r => simp [blockOf]
  have hscan : platoTextBlocks (cmjGo l) = l.map entryPair := by
    unfold platoTextBlocks
    rw [hgo]
    exact scanBlocks_blocks (l.map entryPair) _ hpairs (le_refl _)
  show platoTextToCmj (JsVal.str (cmjGo l)) = _
  have hfin : platoTextToCmj (JsVal.str (cmjGo l))
      = Except.ok ((platoTextBlocks (cmjGo l)).map mkTextMsg) := by
    simp only [platoTextToCmj]
    rw [if_neg hTne]
  rw [hfin, hscan, List.map_map]
  congr 1
  exact List.map_congr_left (fun e _ => mkTextMsg_entryPair e)

/-- C1 witness: the amended round trip evaluated on a concrete
well-formed one-message array. -/
theorem cmjToText_textToCmj_roundTrip_witness :
    platoTextToCmj (JsVal.str (CmjToPlatoText (CmjInput.arr
        [CmjEntry.obj (JsVal.str ((" Ann ").toList)) (JsVal.str (("Hi there ").toList))
          JsVal.nonString])))
      = Except.ok
          ([CmjEntry.obj (JsVal.str ((" Ann ").toList)) (JsVal.str (("Hi there ").toList))
              JsVal.nonString].map roundTripMsg) :=
  cmjToText_textToCmj_roundTrip _ (by decide) (by decide)

/-- C2: the concrete three-block transcript is converted by
`platoTextToCmj` to exactly the assistant, system and user messages
of the claim, in order. -/
theorem platoTextToCmj_concrete_scenario :
    platoTextToCmj (JsVal.str (("MACHINA RATIOCINATRIX: Hello there.\n\nINSTRUCTIONS: Be concise.\n\nAlice: Hi!\n\n").toList))
      = Except.ok
          [ { role := ("assistant").toList, name := ("MACHINA RATIOCINATRIX").toList,
              content := ("Hello there.").toList },
            { role := ("system").toList, name := ("INSTRUCTIONS").toList,
              content := ("Be concise.").toList },
            { role := ("user").toList, name := ("Alice").toList,
              content := ("Hi!").toList } ] := rfl

/-- C3: role classification is by upper-cased label: assistant
exactly when the upper-cased label equals the assistant identity
(the configured `machineConfig.name` parameter on the HTML path, the
hard-coded literal on the text path), system exactly when it equals
INSTRUCTIONS without being assistant, and user otherwise; and every
message produced by either CMJ path carries the role classified from
its own name with the respective identity. -/
theorem classifyRole_spec :
    (∀ identity label : List Char,
       (classifyRole identity label = ("assistant").toList ↔ jsToUpper label = identity)
       ∧ (classifyRole identity label = ("system").toList
            ↔ (jsToUpper label = ("INSTRUCTIONS").toList ∧ jsToUpper label ≠ identity))
       ∧ (classifyRole identity label = ("user").toList
            ↔ (jsToUpper label ≠ identity ∧ jsToUpper label ≠ ("INSTRUCTIONS").toList)))
    ∧ (∀ (mc : List Char) (parse : List Char → List Paragraph) (v : JsVal) (msgs : List Msg),
         platoHtmlToCmj mc parse v = Except.ok msgs →
         ∀ m ∈ msgs, m.role = classifyRole mc m.name)
    ∧ (∀ (v : JsVal) (msgs : List Msg),
         platoTextToCmj v = Except.ok msgs →
         ∀ m ∈ msgs, m.role = classifyRole machinaName m.name) := by
  refine ⟨?_, ?_, ?_⟩
  · intro identity label
    by_cases h1 : jsToUpper label = identity
    · rw [show classifyRole identity label = ("assistant").toList from by
        unfold classifyRole; rw [if_pos h1]]
      refine ⟨⟨fun _ => h1, fun _ => rfl⟩, ⟨?_, ?_⟩, ⟨?_, ?_⟩⟩
      · intro hx; exact absurd hx (by decide)
      · intro hx; exact absurd h1 hx.2
      · intro hx; exact absurd hx (by decide)
      · intro hx; exact absurd h1 hx.1
    · by_cases h2 : jsToUpper label = ("INSTRUCTIONS").toList
      · rw [show classifyRole identity label = ("system").toList from by
          unfold classifyRole
          rw [if_neg h1, if_pos (show jsToUpper label = instructionsName from h2)]]
        refine ⟨⟨?_, ?_⟩, ⟨fun _ => ⟨h2, h1⟩, fun _ => rfl⟩, ⟨?_, ?_⟩⟩
        · intro hx; exact absurd hx (by decide)
        · intro hx; exact absurd hx h1
        · intro hx; exact absurd hx (by decide)
        · intro hx; exact absurd h2 hx.2
      · rw [show classifyRole identity label = ("user").toList from by
          unfold classifyRole
          rw [if_neg h1, if_neg (show ¬jsToUpper label = instructionsName from h2)]]
        refine ⟨⟨?_, ?_⟩, ⟨?_, ?_⟩, ⟨fun _ => ⟨h1, h2⟩, fun _ => rfl⟩⟩
        · intro hx; exact absurd hx (by decide)
        · intro hx; exact absurd hx h1
        · intro hx; exact absurd hx (by decide)
        · intro hx; exact absurd hx.1 h2
  · intro mc parse v msgs h m hm
    obtain ⟨s, -, rfl⟩ := platoHtmlToCmj_ok h
    rw [List.mem_filterMap] at hm
    obtain ⟨p, -, hmp⟩ := hm
    cases hsp : p.speakerSpan with
    | none => rw [hsp] at hmp; simp at hmp
    | some sp =>
      rw [hsp] at hmp
      have hm2 : mkHtmlMsg mc p.textContent sp = m := by simpa using hmp
      rw [← hm2]
      rfl
  · intro v msgs h m hm
    obtain ⟨s, -, rfl⟩ := platoTextToCmj_ok h
    rw [List.mem_map] at hm
    obtain ⟨pr, -, rfl⟩ := hm
    rfl

/-- C3 witness: the classifier evaluated at concrete labels through
the characterization, and a concrete text conversion whose message
carries the classified role. -/
theorem classifyRole_spec_witness :
    classifyRole machinaName (("machina ratiocinatrix").toList) = ("assistant").toList
    ∧ ∀ m ∈ [({ role := ("user").toList, name := ("Alice").toList,
                content := ("Hi").toList } : Msg)],
        m.role = classifyRole machinaName m.name :=
  ⟨(classifyRole_spec.1 machinaName (("machina ratiocinatrix").toList)).1.mpr (by decide),
   classifyRole_spec.2.2 (JsVal.str (("Alice: Hi\n\n").toList)) _ rfl⟩

/-- C10: every message produced by either CMJ-producing conversion
has one of the three role strings, and name and content fields on
which trimming is the identity. -/
theorem cmj_output_invariant :
    (∀ (mc : List Char) (parse : List Char → List Paragraph) (v : JsVal) (msgs : List Msg),
       platoHtmlToCmj mc parse v = Except.ok msgs →
       ∀ m ∈ msgs,
         (m.role = ("user").toList ∨ m.role = ("assistant").toList
           ∨ m.role = ("system").toList)
         ∧ m.name = jsTrim m.name ∧ m.content = jsTrim m.content)
    ∧ (∀ (v : JsVal) (msgs : List Msg),
       platoTextToCmj v = Except.ok msgs →
       ∀ m ∈ msgs,
         (m.role = ("user").toList ∨ m.role = ("assistant").toList
           ∨ m.role = ("system").toList)
         ∧ m.name = jsTrim m.name ∧ m.content = jsTrim m.content) := by
  constructor
  · intro mc parse v msgs h m hm
    obtain ⟨s, -, rfl⟩ := platoHtmlToCmj_ok h
    rw [List.mem_filterMap] at hm
    obtain ⟨p, -, hmp⟩ := hm
    cases hsp : p.speakerSpan with
    | none => rw [hsp] at hmp; simp at hmp
    | some sp =>
      rw [hsp] at hmp
      have hm2 : mkHtmlMsg mc p.textContent sp = m := by simpa using hmp
      rw [← hm2]
      refine ⟨classifyRole_cases mc (jsTrim sp), ?_, ?_⟩
      · exact (jsTrim_idem sp).symm
      · show extractUtterance p.textContent sp = jsTrim (extractUtterance p.textContent sp)
        unfold extractUtterance
        rw [jsTrim_idem]
  · intro v msgs h m hm
    obtain ⟨s, -, rfl⟩ := platoTextToCmj_ok h
    rw [List.mem_map] at hm
    obtain ⟨pr, -, rfl⟩ := hm
    refine ⟨classifyRole_cases machinaName (jsTrim pr.1), ?_, ?_⟩
    · exact (jsTrim_idem pr.1).symm
    · exact (jsTrim_idem pr.2).symm

/-- C10 witness: the invariant evaluated on a concrete text
conversion. -/
theorem cmj_output_invariant_witness :
    ∀ m ∈ [({ role := ("user").toList, name := ("Bo b").toList,
              content := ("Hi you").toList } : Msg)],
      (m.role = ("user").toList ∨ m.role = ("assistant").toList
        ∨ m.role = ("system").toList)
      ∧ m.name = jsTrim m.name ∧ m.content = jsTrim m.content :=
  cmj_output_invariant.2 (JsVal.str (("Bo b:  Hi you \n\n").toList)) _ rfl

/-- C4 counterexample: the utterance computation does not strip only
a leading colon.  For a paragraph whose text is `Bob Hi: there` with
speaker span `Bob`, the colon occurs only later, inside the spoken
content, yet the code removes it (with its following whitespace),
yielding `Hithere` where the claim requires `Hi: there`. -/
theorem utterance_colon_counterexample :
    extractUtterance (("Bob Hi: there").toList) (("Bob").toList) = ("Hithere").toList
    ∧ utteranceLeadingColon (("Bob Hi: there").toList) (("Bob").toList) = ("Hi: there").toList
    ∧ extractUtterance (("Bob Hi: there").toList) (("Bob").toList)
        ≠ utteranceLeadingColon (("Bob Hi: there").toList) (("Bob").toList)
    ∧ platoHtmlToCmj (("MACHINE").toList)
        (fun _ => [{ speakerSpan := some (("Bob").toList),
                     textContent := ("Bob Hi: there").toList }])
        (JsVal.str (("x").toList))
        = Except.ok [{ role := ("user").toList, name := ("Bob").toList,
                       content := ("Hithere").toList }] :=
  ⟨rfl, rfl, by decide, rfl⟩

/-- C4 (amended): the recorded utterance is the paragraph text with
the first occurrence of the untrimmed speaker-label text removed,
then the first colon occurring anywhere in the remainder (not only a
leading one) removed together with its following whitespace, then
the remainder trimmed; the substring removal is scoped to the first
match, so a speaker label recurring verbatim later is left intact. -/
theorem utterance_extraction_amended :
    (∀ pre post : List Char, ':' ∉ pre →
       removeColonWs (pre ++ ':' :: post) = pre ++ post.dropWhile jsWS)
    ∧ (∀ s : List Char, ':' ∉ s → removeColonWs s = s)
    ∧ (∀ pre post pat : List Char,
        (∀ i, i < pre.length → ¬ pat <+: ((pre ++ pat) ++ post).drop i) →
        replaceFirstStr pat ((pre ++ pat) ++ post) = pre ++ post)
    ∧ (∀ (mc : List Char) (parse : List Char → List Paragraph) (s : List Char)
          (msgs : List Msg),
        platoHtmlToCmj mc parse (JsVal.str s) = Except.ok msgs →
        ∀ m ∈ msgs, ∃ p ∈ parse s, ∃ sp, p.speakerSpan = some sp
          ∧ m.content = jsTrim (removeColonWs (replaceFirstStr sp p.textContent))
          ∧ m.name = jsTrim sp) := by
  refine ⟨?_, ?_, ?_, ?_⟩
  · intro pre post
    induction pre with
    | nil =>
      intro _
      show (if ':' = ':' then post.dropWhile jsWS else ':' :: removeColonWs post)
          = [] ++ post.dropWhile jsWS
      rw [if_pos rfl]
      rfl
    | cons x pre2 ih =>
      intro hpre
      have hx : x ≠ ':' := fun hc => hpre (by simp [hc])
      show (if x = ':' then (pre2 ++ ':' :: post).dropWhile jsWS
            else x :: removeColonWs (pre2 ++ ':' :: post)) = (x :: pre2) ++ post.dropWhile jsWS
      rw [if_neg hx, ih (fun hc => hpre (by simp [hc]))]
      rfl
  · intro s
    induction s with
    | nil => intro _; rfl
    | cons x r ih =>
      intro hs
      have hx : x ≠ ':' := fun hc => hs (by simp [hc])
      show (if x = ':' then r.dropWhile jsWS else x :: removeColonWs r) = x :: r
      rw [if_neg hx, ih (fun hc => hs (by simp [hc]))]
  · intro pre post pat
    induction pre with
    | nil =>
      intro _
      show replaceFirstStr pat (pat ++ post) = [] ++ post
      cases hp : pat with
      | nil =>
        cases post with
        | nil => rfl
        | cons y r =>
          show (if List.isPrefixOf [] (y :: r) then (y :: r).drop (0 : Nat)
                else y :: replaceFirstStr [] r) = [] ++ y :: r
          rw [if_pos (by rw [ List.isPrefixOf_iff_prefix]; exact List.nil_prefix)]
          rfl
      | cons a pat2 =>
        show (if List.isPrefixOf (a :: pat2) (a :: (pat2 ++ post))
              then (a :: (pat2 ++ post)).drop (a :: pat2).length
              else a :: replaceFirstStr (a :: pat2) (pat2 ++ post)) = [] ++ post
        rw [if_pos (by rw [ List.isPrefixOf_iff_prefix]; exact List.prefix_append _ _)]
        exact List.drop_left (a :: pat2) post
    | cons x pre2 ih =>
      intro hyp
      have h0 : ¬ pat.isPrefixOf (x :: ((pre2 ++ pat) ++ post)) = true := by
        rw [ List.isPrefixOf_iff_prefix]
        intro hc
        have := hyp 0 (by simp)
        rw [List.drop_zero] at this
        exact this hc
      show (if List.isPrefixOf pat (x :: ((pre2 ++ pat) ++ post))
            then (x :: ((pre2 ++ pat) ++ post)).drop pat.length
            else x :: replaceFirstStr pat ((pre2 ++ pat) ++ post)) = (x :: pre2) ++ post
      rw [if_neg h0]
      have hrec := ih (fun i hi => by
        have := hyp (i + 1) (by simpa using Nat.succ_lt_succ hi)
        simpa using this)
      rw [hrec]
      rfl
  · intro mc parse s msgs h m hm
    obtain ⟨s2, hs2, rfl⟩ := platoHtmlToCmj_ok h
    have hss : s2 = s := by
      injection hs2 with h2
      exact h2.symm
    subst hss
    rw [List.mem_filterMap] at hm
    obtain ⟨p, hp, hmp⟩ := hm
    cases hsp : p.speakerSpan with
    | none => rw [hsp] at hmp; simp at hmp
    | some sp =>
      rw [hsp] at hmp
      have hm2 : mkHtmlMsg mc p.textContent sp = m := by simpa using hmp
      exact ⟨p, hp, sp, hsp, by rw [← hm2]; rfl, by rw [← hm2]; rfl⟩

/-- C4 witness: the amended extraction facts evaluated at concrete
inputs. -/
theorem utterance_extraction_amended_witness :
    removeColonWs (("ab").toList ++ ':' :: ((" cd").toList))
        = ("ab").toList ++ ((" cd").toList).dropWhile jsWS
    ∧ removeColonWs (("no colon").toList) = ("no colon").toList
    ∧ replaceFirstStr (("Bob").toList)
        ((([] : List Char) ++ ("Bob").toList) ++ ((" says Bob").toList))
        = ([] : List Char) ++ ((" says Bob").toList) :=
  ⟨utterance_extraction_amended.1 (("ab").toList) ((" cd").toList) (by decide),
   utterance_extraction_amended.2.1 (("no colon").toList) (by decide),
   utterance_extraction_amended.2.2.1 [] ((" says Bob").toList) (("Bob").toList)
     (by intro i hi; simp at hi)⟩

/-- The serialization loop of `platoTextToPlatoHtml` concatenates
the per-record renderings in order. -/
theorem htmlGo_eq : ∀ l, htmlGo l = (l.map renderHtmlP).flatten
  | [] => rfl
  | pr :: r => by
    show renderHtmlP pr ++ htmlGo r = renderHtmlP pr ++ (r.map renderHtmlP).flatten
    rw [htmlGo_eq r]

/-- C5: on well-formed input, `platoTextToPlatoHtml` renders every
extracted record, in order, as a dialogue paragraph followed by a
newline, trimming whitespace only from the end of the final result;
escaping rewrites every `<` to `&lt;` and every `>` to `&gt;` and
touches no other character; and the concrete scenario of the claim
evaluates as stated. -/
theorem platoTextToPlatoHtml_spec :
    (∀ s : List Char, jsTrim s ≠ [] →
       platoTextToPlatoHtml (JsVal.str s)
         = Except.ok (jsTrimEnd (((platoTextBlocks s).map renderHtmlP).flatten)))
    ∧ (∀ c : Char, c ≠ '<' → c ≠ '>' → escapeHtml [c] = [c])
    ∧ escapeHtml [('<' : Char)] = ("&lt;").toList
    ∧ escapeHtml [('>' : Char)] = ("&gt;").toList
    ∧ platoTextToPlatoHtml (JsVal.str (("Bob: Hi <there>\n\n").toList))
        = Except.ok (("<p class=\"dialogue\"><span class=\"speaker\">Bob</span> Hi &lt;there&gt;</p>").toList) := by
  refine ⟨?_, ?_, rfl, rfl, rfl⟩
  · intro s hs
    simp only [platoTextToPlatoHtml]
    rw [if_neg hs, htmlGo_eq]
  · intro c h1 h2
    show escGt (escLt [c]) = [c]
    have hlt : escLt [c] = [c] := by
      show (if c = '<' then ("&lt;").toList else [c]) ++ [] = [c]
      rw [if_neg h1]
      rfl
    rw [hlt]
    show (if c = '>' then ("&gt;").toList else [c]) ++ [] = [c]
    rw [if_neg h2]
    rfl

/-- C5 witness: the serialization shape and per-character escaping
facts evaluated at concrete inputs. -/
theorem platoTextToPlatoHtml_spec_witness :
    platoTextToPlatoHtml (JsVal.str (("Ed: ok\n\n").toList))
      = Except.ok (jsTrimEnd (((platoTextBlocks (("Ed: ok\n\n").toList)).map renderHtmlP).flatten))
    ∧ escapeHtml [('a' : Char)] = [('a' : Char)] :=
  ⟨platoTextToPlatoHtml_spec.1 (("Ed: ok\n\n").toList) (by decide),
   platoTextToPlatoHtml_spec.2.1 'a' (by decide) (by decide)⟩

/-- C6: each CMJ-producing entry point rejects a non-string or
empty-string input with its InvalidInput error, for every parsing
capability and configured machine name, producing no messages. -/
theorem cmj_paths_invalid_input (mc : List Char) (parse : List Char → List Paragraph)
    (v : JsVal) (h : v = JsVal.nonString ∨ v = JsVal.str []) :
    platoHtmlToCmj mc parse v = Except.error htmlCmjErr
    ∧ platoTextToCmj v = Except.error textCmjErr := by
  rcases h with rfl | rfl
  · exact ⟨rfl, rfl⟩
  · exact ⟨rfl, rfl⟩

/-- C6 witness: the rejection evaluated at a non-string input. -/
theorem cmj_paths_invalid_input_witness :
    platoHtmlToCmj (("M").toList) (fun _ => []) JsVal.nonString = Except.error htmlCmjErr
    ∧ platoTextToCmj JsVal.nonString = Except.error textCmjErr :=
  cmj_paths_invalid_input (("M").toList) (fun _ => []) JsVal.nonString (Or.inl rfl)

/-- C7: each text-producing entry point maps an empty or
whitespace-only string to the empty string without error, for every
parsing capability. -/
theorem text_paths_empty_input (parse : List Char → List Paragraph) (s : List Char)
    (h : jsTrim s = []) :
    platoHtmlToPlatoText parse (JsVal.str s) = Except.ok []
    ∧ platoTextToPlatoHtml (JsVal.str s) = Except.ok [] := by
  constructor
  · simp only [platoHtmlToPlatoText]
    rw [if_pos h]
  · simp only [platoTextToPlatoHtml]
    rw [if_pos h]

/-- C7 witness: the empty-result behaviour evaluated at a
whitespace-only string. -/
theorem text_paths_empty_input_witness :
    platoHtmlToPlatoText (fun _ => []) (JsVal.str ((" \n\t ").toList)) = Except.ok []
    ∧ platoTextToPlatoHtml (JsVal.str ((" \n\t ").toList)) = Except.ok [] :=
  text_paths_empty_input (fun _ => []) ((" \n\t ").toList) (by decide)

/-- C8: `CmjToPlatoText` is total: a non-array input yields the
empty string, and an array input yields exactly the in-order
concatenation of the renderings of its well-formed entries, entries
with a non-string name or content contributing nothing. -/
theorem cmjToPlatoText_total_spec :
    CmjToPlatoText CmjInput.notArr = []
    ∧ ∀ l, CmjToPlatoText (CmjInput.arr l) = (l.filterMap renderEntryOpt).flatten := by
  refine ⟨rfl, ?_⟩
  intro l
  induction l with
  | nil => rfl
  | cons e r ih =>
    rw [List.filterMap_cons]
    cases e with
    | nonObj => simpa [renderEntryOpt, CmjToPlatoText, cmjGo] using ih
    | obj nv cv rv =>
      cases nv with
      | nonString => simpa [renderEntryOpt, CmjToPlatoText, cmjGo] using ih
      | str n =>
        cases cv with
        | nonString => simpa [renderEntryOpt, CmjToPlatoText, cmjGo] using ih
        | str c =>
          simpa [renderEntryOpt, CmjToPlatoText, cmjGo, List.append_assoc] using ih

/-- C9: `CmjToPlatoText` reads only the `name` and `content` fields
of each entry: two arrays agreeing pointwise on those observations
(in particular arrays differing only in `role` fields, present or
absent) serialize identically. -/
theorem role_noninterference :
    ∀ (l1 l2 : List CmjEntry), l1.map entryNC = l2.map entryNC →
      CmjToPlatoText (CmjInput.arr l1) = CmjToPlatoText (CmjInput.arr l2) := by
  intro l1
  induction l1 with
  | nil =>
    intro l2 h
    cases l2 with
    | nil => rfl
    | cons e2 r2 => simp at h
  | cons e1 r1 ih =>
    intro l2 h
    cases l2 with
    | nil => simp at h
    | cons e2 r2 =>
      simp only [List.map_cons, List.cons.injEq] at h
      obtain ⟨h1, h2⟩ := h
      have hr : cmjGo r1 = cmjGo r2 := ih r2 h2
      show cmjGo (e1 :: r1) = cmjGo (e2 :: r2)
      cases e1 with
      | nonObj =>
        cases e2 with
        | nonObj => simpa [cmjGo] using hr
        | obj n2 c2 rv2 => simp [entryNC] at h1
      | obj n1 c1 rv1 =>
        cases e2 with
        | nonObj => simp [entryNC] at h1
        | obj n2 c2 rv2 =>
          simp only [entryNC, Option.some.injEq, Prod.mk.injEq] at h1
          obtain ⟨hn, hc⟩ := h1
          subst hn
          subst hc
          cases n1 with
          | nonString => simpa [cmjGo] using hr
          | str n =>
            cases c1 with
            | nonString => simpa [cmjGo] using hr
            | str c => simpa [cmjGo] using hr

/-- C9 witness: two concrete one-entry arrays differing only in the
role field serialize identically. -/
theorem role_noninterference_witness :
    CmjToPlatoText (CmjInput.arr
        [CmjEntry.obj (JsVal.str (("A").toList)) (JsVal.str (("B").toList))
          (JsVal.str (("system").toList))])
      = CmjToPlatoText (CmjInput.arr
          [CmjEntry.obj (JsVal.str (("A").toList)) (JsVal.str (("B").toList))
            JsVal.nonString]) :=
  role_noninterference _ _ rfl

end Plato
